import Mathlib

/-!
Shallow embedding of httpfs.py: a read-only FUSE filesystem over HTTP that
serves reads from fixed-size cached blocks fetched with HTTP range requests.
Bytes are modelled as natural numbers, dictionaries as association lists,
wall-clock times as natural numbers passed in explicitly, and the HTTP layer
as a function from a url and byte range to a response. A ghost log field
records every outgoing ranged GET so that theorems can speak about which
remote requests an operation issues.
-/

namespace Httpfs

/-- Block size of remote range fetches, 2 to the 18 bytes (source line 14). -/
def BLOCK_SIZE : Nat := 2 ^ 18

/-- Seconds between cleanup sweeps (source line 16). -/
def CLEANUP_INTERVAL : Nat := 60

/-- Idle seconds after which a files entry expires (source line 17). -/
def CLEANUP_EXPIRED : Nat := 60

/-- The errno value EIO, raised by read on a path with no files entry. -/
def EIO : Nat := 5

/-- Regular-file mode bit, stat.S_IFREG, 0o100000. -/
def S_IFREG : Nat := 32768

/-- Directory mode bit, stat.S_IFDIR, 0o040000. -/
def S_IFDIR : Nat := 16384

/-- Lookup in an association list modelling a Python dict. -/
def aLookup {α β : Type} [DecidableEq α] : List (α × β) → α → Option β
  | [], _ => none
  | (k, v) :: rest, key => if k = key then some v else aLookup rest key

/-- Assignment in an association list modelling a Python dict: replaces the
value in place when the key is present, appends a fresh binding otherwise. -/
def aSet {α β : Type} [DecidableEq α] : List (α × β) → α → β → List (α × β)
  | [], key, val => [(key, val)]
  | (k, v) :: rest, key, val =>
      if k = key then (k, val) :: rest else (k, v) :: aSet rest key val

/-- Model of the LRUCache class (source lines 25 to 47): a capacity together
with an ordered association list standing for the OrderedDict, oldest binding
at the head, newest at the tail. -/
structure LRUCache (α β : Type) where
  capacity : Nat
  cache : List (α × β)
deriving DecidableEq

/-- A freshly constructed LRUCache with the given capacity. -/
def LRUCache.emptyCache (α β : Type) (capacity : Nat) : LRUCache α β :=
  ⟨capacity, []⟩

/-- OrderedDict.pop of a key: remove its binding, keeping the order of the
remaining bindings. -/
def odErase {α β : Type} [DecidableEq α] : List (α × β) → α → List (α × β)
  | [], _ => []
  | (k, v) :: rest, key => if k = key then rest else (k, v) :: odErase rest key

/-- Source getitem (lines 30 to 33): pop the key and reinsert its binding at
the most-recently-used end, returning the value together with the updated
cache. A missing key raises KeyError in the source, modelled as none. -/
def LRUCache.getItem {α β : Type} [DecidableEq α] (c : LRUCache α β) (k : α) :
    Option (β × LRUCache α β) :=
  match aLookup c.cache k with
  | none => none
  | some v => some (v, ⟨c.capacity, odErase c.cache k ++ [(k, v)]⟩)

/-- The cache state after a successful getitem; identity when the key is
absent (in the source that case raises KeyError, and every use below is
guarded by a membership hypothesis). -/
def LRUCache.touch {α β : Type} [DecidableEq α] (c : LRUCache α β) (k : α) :
    LRUCache α β :=
  match c.getItem k with
  | none => c
  | some p => p.2

/-- Source setitem (lines 35 to 41): a present key is moved to the
most-recently-used end with the new value; for a fresh key, when the cache is
already at capacity the oldest binding is evicted first (popitem with last
set to false), then the new binding is appended. On an empty capacity-zero
cache the source popitem would raise; every capacity used below is positive. -/
def LRUCache.setItem {α β : Type} [DecidableEq α] (c : LRUCache α β) (k : α)
    (v : β) : LRUCache α β :=
  match aLookup c.cache k with
  | some _ => ⟨c.capacity, odErase c.cache k ++ [(k, v)]⟩
  | none =>
      if c.capacity ≤ c.cache.length then
        ⟨c.capacity, c.cache.drop 1 ++ [(k, v)]⟩
      else
        ⟨c.capacity, c.cache ++ [(k, v)]⟩

/-- Source contains (lines 43 to 44). -/
def LRUCache.hasKey {α β : Type} [DecidableEq α] (c : LRUCache α β) (k : α) :
    Bool :=
  (aLookup c.cache k).isSome

/-- Insert a list of bindings one after the other with setitem. -/
def lruInsertAll {α β : Type} [DecidableEq α] (c : LRUCache α β)
    (l : List (α × β)) : LRUCache α β :=
  l.foldl (fun acc kv => acc.setItem kv.1 kv.2) c

/-- An HTTP response to a ranged GET: status code and raw body bytes. -/
structure HttpResponse where
  status : Nat
  content : List Nat
deriving DecidableEq

/-- A HEAD response as the source consumes it: status code and the parsed
Content-Length header; none stands for an absent or non-numeric header, on
which the source raises from the header dictionary access. -/
structure HeadResponse where
  status : Nat
  contentLength : Option Nat
deriving DecidableEq

/-- The stat-style attribute record built by getattr for a file. -/
structure Attr where
  st_mode : Nat
  st_nlink : Nat
  st_size : Nat
  st_ctime : Nat
  st_mtime : Nat
  st_atime : Nat
deriving DecidableEq

/-- One entry of the files dictionary: last-access time plus attributes. -/
structure FileEntry where
  time : Nat
  attr : Attr
deriving DecidableEq

/-- Ghost record of one outgoing ranged GET: the target url and the value
sent in the Range header. -/
structure RangeRequest where
  url : String
  range : String
deriving DecidableEq

/-- State of an HttpFs instance. The disk cache is keyed here by the pair of
url and block number; the source keys it by the string built from the url, a
dot, and the decimal block number, and that formatting is injective in the
pair because the block-number suffix is the digit run after the final dot.
The log field is a ghost record of every HTTP ranged GET issued, standing for
the calls the source makes through its HTTP client. -/
structure FsState where
  schema : String
  files : List (String × FileEntry)
  diskCache : List ((String × Nat) × List Nat)
  lruHits : Nat
  lruMisses : Nat
  log : List RangeRequest
deriving DecidableEq

/-- Url construction shared by getattr and read: the schema, a colon-slash
separator, and the path with its final two characters stripped. -/
def mkUrl (schema path : String) : String :=
  schema ++ ":/" ++ path.dropRight 2

/-- The value of the Range header for an inclusive byte range, as formatted
at source line 208. -/
def rangeHeader (s e : Nat) : String :=
  "bytes=" ++ toString s ++ "-" ++ toString e

/-- The body a compliant origin returns for a ranged GET with inclusive
range, namely the resource bytes from start through the end of the range or
the end of the resource, whichever comes first. -/
def fetchRange (resource : List Nat) (start endInclusive : Nat) : List Nat :=
  (resource.drop start).take (endInclusive + 1 - start)

/-- A compliant origin server holding one resource: every ranged GET on any
url succeeds with status 206 and the requested byte range. -/
def originRemote (resource : List Nat) : String → Nat → Nat → HttpResponse :=
  fun _ s e => ⟨206, fetchRange resource s e⟩

/-- Source get_block (lines 186 to 214): on a cached key return the stored
block and count a hit; otherwise issue one ranged GET covering the whole
block, store the response body under the key, count a miss, and return the
body. The source consults no status code here. -/
def get_block (remote : String → Nat → Nat → HttpResponse) (st : FsState)
    (url : String) (block_num : Nat) : List Nat × FsState :=
  match aLookup st.diskCache (url, block_num) with
  | some v => (v, { st with lruHits := st.lruHits + 1 })
  | none =>
      let block_start := block_num * BLOCK_SIZE
      let r := remote url block_start (block_start + BLOCK_SIZE - 1)
      (r.content,
        { st with
            lruMisses := st.lruMisses + 1,
            diskCache := aSet st.diskCache (url, block_num) r.content,
            log := st.log ++
              [⟨url, rangeHeader block_start (block_start + BLOCK_SIZE - 1)⟩] })

/-- The inner assignment loop of read (source lines 139 to 140): write the
data bytes into the output list starting at the given position. In every
reachable use the positions are within bounds, matching the source where an
out-of-bounds index would raise. -/
def writeData : List Nat → Nat → List Nat → List Nat
  | out, _, [] => out
  | out, pos, d :: ds => writeData (out.set pos d) (pos + 1) ds

/-- One iteration of the read loop (source lines 125 to 143): fetch the block
containing curr_start, slice out the part overlapping the request, write it
into the output at the matching position, and advance curr_start past the
slice. Returns the new curr_start, the new output, and the new state. -/
def read_step (remote : String → Nat → Nat → HttpResponse) (st : FsState)
    (url : String) (offset size curr_start : Nat) (output : List Nat) :
    Nat × List Nat × FsState :=
  let block_num := curr_start / BLOCK_SIZE
  let block_start := BLOCK_SIZE * (curr_start / BLOCK_SIZE)
  let gb := get_block remote st url block_num
  let data_start := curr_start - block_start
  let data_end := min BLOCK_SIZE (offset + size - block_start)
  let data := (gb.1.drop data_start).take (data_end - data_start)
  (curr_start + (data_end - data_start),
   writeData output (curr_start - offset) data,
   gb.2)

/-- The read while-loop (source line 125): after the first iteration the
last_fetched variable of the source always equals curr_start at the loop
test, so the condition is curr_start less than offset plus size. -/
def read_loop (remote : String → Nat → Nat → HttpResponse) (url : String)
    (offset size : Nat) (curr_start : Nat) (output : List Nat)
    (st : FsState) : List Nat × FsState :=
  if _h : curr_start < offset + size then
    let s := read_step remote st url offset size curr_start output
    read_loop remote url offset size s.1 s.2.1 s.2.2
  else
    (output, st)
termination_by offset + size - curr_start
decreasing_by
  simp only [read_step]
  have h1 : BLOCK_SIZE * (curr_start / BLOCK_SIZE) + curr_start % BLOCK_SIZE
      = curr_start := Nat.div_add_mod curr_start BLOCK_SIZE
  have h2 : curr_start % BLOCK_SIZE < BLOCK_SIZE :=
    Nat.mod_lt _ (by decide)
  omega

/-- The body of read for a path present in files (source lines 113 to 156):
initialize the output to size zero bytes, run the first loop iteration
unconditionally (last_fetched starts at minus one, so the first test always
passes), then continue the loop. -/
def read_run (remote : String → Nat → Nat → HttpResponse) (st : FsState)
    (url : String) (offset size : Nat) : List Nat × FsState :=
  let s := read_step remote st url offset size offset (List.replicate size 0)
  read_loop remote url offset size s.1 s.2.1 s.2.2

/-- Refresh the stored last-access time of a path (source line 153). -/
def touchFiles (files : List (String × FileEntry)) (path : String)
    (now : Nat) : List (String × FileEntry) :=
  files.map (fun kv => if kv.1 = path then (kv.1, { kv.2 with time := now }) else kv)

/-- Source read (lines 111 to 160): for a path with a files entry, assemble
the requested bytes from blocks and refresh the last-access time of the
entry; otherwise raise FuseOSError EIO, leaving all state untouched. The
returned error is the errno value. -/
def read (remote : String → Nat → Nat → HttpResponse) (now : Nat)
    (st : FsState) (path : String) (size offset : Nat) :
    Except Nat (List Nat) × FsState :=
  match aLookup st.files path with
  | some _ =>
      let url := mkUrl st.schema path
      let r := read_run remote st url offset size
      (.ok r.1, { r.2 with files := touchFiles r.2.files path now })
  | none => (.error EIO, st)

/-- The source test path.endswith applied to a two-dot suffix, modelled on
the character list of the string: true exactly when the final two characters
exist and are both dots. (String.endsWith itself is defined by well-founded
recursion and does not evaluate inside the kernel; this form is equivalent
and evaluable.) -/
def endsWithDotDot (path : String) : Bool :=
  path.data.reverse.take 2 == ['.', '.']

/-- Result of getattr: a regular-file attribute record, or the synthetic
directory record built for paths without the two-dot suffix. -/
inductive GetattrResult where
  | file (a : Attr) : GetattrResult
  | dir (st_mode st_nlink : Nat) : GetattrResult
deriving DecidableEq

/-- Source getattr (lines 81 to 109): a cached path returns its stored
attributes; a path ending in two dots issues a HEAD request and builds a
regular-file record whose size is the parsed Content-Length header, caching
a files entry; any other path returns a synthetic directory record. The
source never consults the HEAD status code; when the Content-Length header
is absent the dictionary access raises KeyError, modelled as none, and no
entry is cached. The mode fields are S_IFREG plus 0o644 and S_IFDIR plus
0o555 in decimal. -/
def getattr (head : String → HeadResponse) (now : Nat) (st : FsState)
    (path : String) : Option GetattrResult × FsState :=
  match aLookup st.files path with
  | some e => (some (.file e.attr), st)
  | none =>
      if endsWithDotDot path then
        match (head (mkUrl st.schema path)).contentLength with
        | some n =>
            let attr : Attr := ⟨S_IFREG + 420, 1, n, now, now, now⟩
            (some (.file attr),
             { st with files := aSet st.files path ⟨now, attr⟩ })
        | none => (none, st)
      else
        (some (.dir (S_IFDIR + 365) 2), st)

/-- Source cleanup (lines 165 to 177): keep exactly the files entries whose
last-access time lies within the expiry window of now. -/
def cleanup (now : Nat) (st : FsState) : FsState :=
  { st with files := st.files.filter (fun kv => now - kv.2.time < CLEANUP_EXPIRED) }

/-- Every block cached for the given url holds exactly the bytes a compliant
origin serves for the range of that block. -/
def cacheCoherent (resource : List Nat) (url : String)
    (cache : List ((String × Nat) × List Nat)) : Prop :=
  ∀ b v, aLookup cache (url, b) = some v →
    v = fetchRange resource (b * BLOCK_SIZE) (b * BLOCK_SIZE + BLOCK_SIZE - 1)

/-- The length of the portion of a block that one read-loop iteration copies,
as the source computes it at lines 133 to 134. -/
def strideOf (offset size curr_start : Nat) : Nat :=
  min BLOCK_SIZE (offset + size - BLOCK_SIZE * (curr_start / BLOCK_SIZE)) -
    (curr_start - BLOCK_SIZE * (curr_start / BLOCK_SIZE))

/-- The ranged GET that a miss on block b of a url issues: the whole block,
with an inclusive Range header. -/
def blockReq (url : String) (b : Nat) : RangeRequest :=
  ⟨url, rangeHeader (b * BLOCK_SIZE) (b * BLOCK_SIZE + BLOCK_SIZE - 1)⟩

theorem aLookup_aSet_self {α β : Type} [DecidableEq α] (l : List (α × β))
    (k : α) (v : β) : aLookup (aSet l k v) k = some v := by
  induction l with
  | nil => simp [aSet, aLookup]
  | cons kv rest ih =>
      by_cases h : kv.1 = k
      · simp [aSet, aLookup, h]
      · simp [aSet, aLookup, h, ih]

theorem aLookup_aSet_ne {α β : Type} [DecidableEq α] (l : List (α × β))
    (k k' : α) (v : β) (h : k ≠ k') :
    aLookup (aSet l k v) k' = aLookup l k' := by
  induction l with
  | nil => simp [aSet, aLookup, h]
  | cons kv rest ih =>
      by_cases hk : kv.1 = k
      · simp [aSet, aLookup, hk, h]
      · simp [aSet, aLookup, hk, ih]

theorem aLookup_of_mem_nodup {α β : Type} [DecidableEq α] (l : List (α × β))
    (k : α) (v : β) (hmem : (k, v) ∈ l) (hnd : (l.map Prod.fst).Nodup) :
    aLookup l k = some v := by
  induction l with
  | nil => cases hmem
  | cons kv rest ih =>
      simp only [List.map_cons, List.nodup_cons] at hnd
      rcases List.mem_cons.mp hmem with heq | hmem'
      · subst heq; simp [aLookup]
      · have hk : kv.1 ≠ k := by
          intro hcontra
          exact hnd.1 (hcontra ▸ List.mem_map_of_mem Prod.fst hmem')
        simp [aLookup, hk, ih hmem' hnd.2]

theorem aLookup_eq_none_of_not_mem {α β : Type} [DecidableEq α]
    (l : List (α × β)) (k : α) (h : k ∉ l.map Prod.fst) :
    aLookup l k = none := by
  induction l with
  | nil => rfl
  | cons kv rest ih =>
      simp only [List.map_cons, List.mem_cons, not_or] at h
      have hk : kv.1 ≠ k := fun hc => h.1 hc.symm
      simp [aLookup, hk, ih h.2]

theorem mem_map_fst_odErase {α β : Type} [DecidableEq α] (l : List (α × β))
    (k k' : α) (h : k' ∈ (odErase l k).map Prod.fst) :
    k' ∈ l.map Prod.fst := by
  induction l with
  | nil => simp [odErase] at h
  | cons kv rest ih =>
      obtain ⟨a, v⟩ := kv
      by_cases hk : a = k
      · simp only [odErase, if_pos hk] at h
        simp only [List.map_cons, List.mem_cons]
        exact Or.inr h
      · simp only [odErase, if_neg hk, List.map_cons, List.mem_cons] at h ⊢
        rcases h with h | h
        · exact Or.inl h
        · exact Or.inr (ih h)

theorem length_odErase_of_mem {α β : Type} [DecidableEq α] (l : List (α × β))
    (k : α) (h : k ∈ l.map Prod.fst) :
    (odErase l k).length = l.length - 1 := by
  induction l with
  | nil => cases h
  | cons kv rest ih =>
      by_cases hk : kv.1 = k
      · simp [odErase, hk]
      · have hmem : k ∈ rest.map Prod.fst := by
          rcases List.mem_cons.mp h with h1 | h1
          · exact absurd h1.symm hk
          · exact h1
        have hpos : 0 < rest.length := by
          rcases List.exists_of_mem_map hmem with ⟨p, hp, _⟩
          exact List.length_pos.mpr (List.ne_nil_of_mem hp)
        simp only [odErase, if_neg hk, List.length_cons, ih hmem]
        omega

theorem writeData_nil (out : List Nat) (pos : Nat) :
    writeData out pos [] = out := rfl

theorem writeData_append (out : List Nat) (pos : Nat) (a b : List Nat) :
    writeData out pos (a ++ b) = writeData (writeData out pos a) (pos + a.length) b := by
  induction a generalizing out pos with
  | nil => simp [writeData]
  | cons d ds ih =>
      simp only [List.cons_append, writeData, List.append_eq, ih, List.length_cons]
      rw [show pos + (ds.length + 1) = pos + 1 + ds.length from by omega]

theorem length_writeData (out : List Nat) (pos : Nat) (s : List Nat) :
    (writeData out pos s).length = out.length := by
  induction s generalizing out pos with
  | nil => rfl
  | cons d ds ih => simp [writeData, ih]

theorem writeData_eq_of_fits (out : List Nat) (pos : Nat) (s : List Nat)
    (h : pos + s.length ≤ out.length) :
    writeData out pos s = out.take pos ++ s ++ out.drop (pos + s.length) := by
  induction s generalizing out pos with
  | nil => simp [writeData]
  | cons d ds ih =>
      have hlt : pos < out.length := by
        simp only [List.length_cons] at h
        omega
      have hset : out.set pos d = out.take pos ++ d :: out.drop (pos + 1) :=
        List.set_eq_take_cons_drop d hlt
      have hfits : (pos + 1) + ds.length ≤ (out.set pos d).length := by
        rw [List.length_set]
        simp only [List.length_cons] at h
        omega
      have hlen : (out.take pos).length = pos := by
        simp only [List.length_take]
        omega
      calc writeData out pos (d :: ds)
          = writeData (out.set pos d) (pos + 1) ds := rfl
        _ = (out.set pos d).take (pos + 1) ++ ds ++
              (out.set pos d).drop (pos + 1 + ds.length) := ih _ _ hfits
        _ = out.take pos ++ d :: ds ++ out.drop (pos + (ds.length + 1)) := by
              rw [hset]
              have h1 : (out.take pos ++ d :: out.drop (pos + 1)).take (pos + 1)
                  = out.take pos ++ [d] := by
                rw [show pos + 1 = (out.take pos).length + 1 by omega]
                rw [List.take_append]
                simp
              have h2 : (out.take pos ++ d :: out.drop (pos + 1)).drop (pos + 1 + ds.length)
                  = out.drop (pos + (ds.length + 1)) := by
                rw [show pos + 1 + ds.length = (out.take pos).length + (1 + ds.length) by omega]
                rw [List.drop_append]
                rw [show (1 : Nat) + ds.length = ds.length + 1 from by omega]
                rw [List.drop_succ_cons, List.drop_drop]
                congr 1
                omega
              rw [h1, h2]
              simp
        _ = out.take pos ++ (d :: ds) ++ out.drop (pos + (d :: ds).length) := by
              simp

theorem writeData_split (out : List Nat) (p k : Nat) (S : List Nat) :
    writeData (writeData out p (S.take k)) (p + k) (S.drop k) =
      writeData out p S := by
  by_cases h : k ≤ S.length
  · conv_rhs =>
      rw [← List.take_append_drop k S, writeData_append, List.length_take,
        Nat.min_eq_left h]
  · rw [List.drop_eq_nil_of_le (by omega), List.take_of_length_le (by omega)]
    rfl

theorem writeData_replicate_full (size : Nat) (s : List Nat)
    (h : s.length = size) :
    writeData (List.replicate size 0) 0 s = s := by
  rw [writeData_eq_of_fits _ _ _ (by simp [h])]
  simp [List.drop_eq_nil_of_le, h]

theorem writeData_replicate_padded (size : Nat) (s : List Nat)
    (h : s.length ≤ size) :
    writeData (List.replicate size 0) 0 s =
      s ++ List.replicate (size - s.length) 0 := by
  rw [writeData_eq_of_fits _ _ _ (by simp [h])]
  simp

theorem cacheCoherent_nil (R : List Nat) (url : String) :
    cacheCoherent R url [] := by
  intro b v h
  simp [aLookup] at h

theorem fetchRange_block (R : List Nat) (b : Nat) :
    fetchRange R (b * BLOCK_SIZE) (b * BLOCK_SIZE + BLOCK_SIZE - 1) =
      (R.drop (b * BLOCK_SIZE)).take BLOCK_SIZE := by
  unfold fetchRange
  congr 1
  have hpos : 0 < BLOCK_SIZE := by decide
  omega

theorem get_block_spec (R : List Nat) (st : FsState) (url : String) (b : Nat)
    (hcoh : cacheCoherent R url st.diskCache) :
    (get_block (originRemote R) st url b).1 =
        (R.drop (b * BLOCK_SIZE)).take BLOCK_SIZE ∧
    cacheCoherent R url (get_block (originRemote R) st url b).2.diskCache ∧
    (get_block (originRemote R) st url b).2.files = st.files ∧
    (get_block (originRemote R) st url b).2.schema = st.schema := by
  cases hl : aLookup st.diskCache (url, b) with
  | some v =>
      have hv := hcoh b v hl
      simp only [get_block, hl]
      exact ⟨by rw [hv, fetchRange_block], hcoh, trivial, trivial⟩
  | none =>
      simp only [get_block, hl]
      refine ⟨?_, ?_, trivial, trivial⟩
      · exact fetchRange_block R b
      · intro b' v' hv'
        by_cases hb : b = b'
        · subst hb
          rw [aLookup_aSet_self] at hv'
          injection hv' with hv''
          rw [← hv'']
          rfl
        · rw [aLookup_aSet_ne _ _ _ _ (by simp [hb])] at hv'
          exact hcoh b' v' hv'

theorem read_step_fst (remote : String → Nat → Nat → HttpResponse)
    (st : FsState) (url : String) (offset size curr_start : Nat)
    (out : List Nat) :
    (read_step remote st url offset size curr_start out).1 =
      curr_start + strideOf offset size curr_start := rfl

theorem strideOf_pos (offset size curr_start : Nat)
    (h : curr_start < offset + size) :
    0 < strideOf offset size curr_start := by
  unfold strideOf
  have h1 := Nat.div_add_mod curr_start BLOCK_SIZE
  have h2 : curr_start % BLOCK_SIZE < BLOCK_SIZE := Nat.mod_lt _ (by decide)
  omega

theorem take_drop_slice {γ : Type} (l : List γ) (p q r s : Nat)
    (h : s ≤ q - r) :
    (((l.drop p).take q).drop r).take s = (l.drop (p + r)).take s := by
  rw [List.drop_take, List.drop_drop, List.take_take]
  congr 1
  omega

theorem read_step_spec (R : List Nat) (st : FsState) (url : String)
    (offset size curr_start : Nat) (out : List Nat)
    (hcoh : cacheCoherent R url st.diskCache) :
    (read_step (originRemote R) st url offset size curr_start out).2.1 =
      writeData out (curr_start - offset)
        ((R.drop curr_start).take (strideOf offset size curr_start)) ∧
    cacheCoherent R url
      (read_step (originRemote R) st url offset size curr_start out).2.2.diskCache ∧
    (read_step (originRemote R) st url offset size curr_start out).2.2.files
      = st.files ∧
    (read_step (originRemote R) st url offset size curr_start out).2.2.schema
      = st.schema := by
  obtain ⟨hg1, hg2, hg3, hg4⟩ :=
    get_block_spec R st url (curr_start / BLOCK_SIZE) hcoh
  have h1 := Nat.div_add_mod curr_start BLOCK_SIZE
  have h2 : curr_start % BLOCK_SIZE < BLOCK_SIZE := Nat.mod_lt _ (by decide)
  refine ⟨?_, hg2, hg3, hg4⟩
  show writeData out (curr_start - offset)
      (((get_block (originRemote R) st url (curr_start / BLOCK_SIZE)).1.drop
          (curr_start - BLOCK_SIZE * (curr_start / BLOCK_SIZE))).take
        (min BLOCK_SIZE
            (offset + size - BLOCK_SIZE * (curr_start / BLOCK_SIZE)) -
          (curr_start - BLOCK_SIZE * (curr_start / BLOCK_SIZE)))) = _
  rw [hg1]
  rw [show (curr_start / BLOCK_SIZE) * BLOCK_SIZE =
    BLOCK_SIZE * (curr_start / BLOCK_SIZE) from Nat.mul_comm _ _]
  rw [take_drop_slice R (BLOCK_SIZE * (curr_start / BLOCK_SIZE)) BLOCK_SIZE
    (curr_start - BLOCK_SIZE * (curr_start / BLOCK_SIZE)) _ (by omega)]
  rw [show BLOCK_SIZE * (curr_start / BLOCK_SIZE) +
      (curr_start - BLOCK_SIZE * (curr_start / BLOCK_SIZE)) = curr_start from
    by omega]
  rfl

theorem strideOf_le (offset size curr_start : Nat)
    (_h : offset ≤ curr_start) :
    strideOf offset size curr_start ≤ offset + size - curr_start := by
  unfold strideOf
  have h1 := Nat.div_add_mod curr_start BLOCK_SIZE
  have h2 : curr_start % BLOCK_SIZE < BLOCK_SIZE := Nat.mod_lt _ (by decide)
  omega

theorem read_loop_spec (R : List Nat) (url : String) (offset size : Nat) :
    ∀ n curr_start out st, offset + size - curr_start ≤ n →
      offset ≤ curr_start →
      cacheCoherent R url st.diskCache →
      (read_loop (originRemote R) url offset size curr_start out st).1 =
        writeData out (curr_start - offset)
          ((R.drop curr_start).take (offset + size - curr_start)) ∧
      cacheCoherent R url
        (read_loop (originRemote R) url offset size curr_start out st).2.diskCache ∧
      (read_loop (originRemote R) url offset size curr_start out st).2.files
        = st.files ∧
      (read_loop (originRemote R) url offset size curr_start out st).2.schema
        = st.schema := by
  intro n
  induction n with
  | zero =>
      intro cs out st hn hcs hcoh
      have hstop : ¬ cs < offset + size := by omega
      rw [read_loop.eq_def, dif_neg hstop]
      refine ⟨?_, hcoh, rfl, rfl⟩
      rw [show offset + size - cs = 0 from by omega]
      simp [writeData_nil]
  | succ n ih =>
      intro cs out st hn hcs hcoh
      by_cases hlt : cs < offset + size
      · obtain ⟨hs1, hs2, hs3, hs4⟩ :=
          read_step_spec R st url offset size cs out hcoh
        have hpos := strideOf_pos offset size cs hlt
        have hle := strideOf_le offset size cs hcs
        have hn' : offset + size - (cs + strideOf offset size cs) ≤ n := by
          omega
        have hcs' : offset ≤ cs + strideOf offset size cs := by omega
        obtain ⟨h1, h2, h3, h4⟩ := ih
          ((read_step (originRemote R) st url offset size cs out).1)
          ((read_step (originRemote R) st url offset size cs out).2.1)
          ((read_step (originRemote R) st url offset size cs out).2.2)
          (by rw [read_step_fst]; omega)
          (by rw [read_step_fst]; omega)
          hs2
        have hred : read_loop (originRemote R) url offset size cs out st =
            read_loop (originRemote R) url offset size
              ((read_step (originRemote R) st url offset size cs out).1)
              ((read_step (originRemote R) st url offset size cs out).2.1)
              ((read_step (originRemote R) st url offset size cs out).2.2) := by
          rw [read_loop.eq_def, dif_pos hlt]
        rw [hred]
        refine ⟨?_, h2, by rw [h3, hs3], by rw [h4, hs4]⟩
        rw [h1, hs1, read_step_fst]
        rw [show cs + strideOf offset size cs - offset =
          (cs - offset) + strideOf offset size cs from by omega]
        rw [show (R.drop cs).take (strideOf offset size cs) =
          ((R.drop cs).take (offset + size - cs)).take (strideOf offset size cs)
          from by rw [List.take_take, Nat.min_eq_left hle]]
        rw [show (R.drop (cs + strideOf offset size cs)).take
            (offset + size - (cs + strideOf offset size cs)) =
          ((R.drop cs).take (offset + size - cs)).drop (strideOf offset size cs)
          from by
            rw [List.drop_take, List.drop_drop]
            congr 1
            omega]
        exact writeData_split out (cs - offset) (strideOf offset size cs)
          ((R.drop cs).take (offset + size - cs))
      · have hstop : ¬ cs < offset + size := hlt
        rw [read_loop.eq_def, dif_neg hstop]
        refine ⟨?_, hcoh, rfl, rfl⟩
        rw [show offset + size - cs = 0 from by omega]
        simp [writeData_nil]

theorem read_run_spec (R : List Nat) (st : FsState) (url : String)
    (offset size : Nat) (hcoh : cacheCoherent R url st.diskCache) :
    (read_run (originRemote R) st url offset size).1 =
      writeData (List.replicate size 0) 0 ((R.drop offset).take size) ∧
    cacheCoherent R url
      (read_run (originRemote R) st url offset size).2.diskCache ∧
    (read_run (originRemote R) st url offset size).2.files = st.files ∧
    (read_run (originRemote R) st url offset size).2.schema = st.schema := by
  by_cases hsz : 0 < size
  · have heq : read_run (originRemote R) st url offset size =
        read_loop (originRemote R) url offset size offset
          (List.replicate size 0) st := by
      rw [read_loop.eq_def, dif_pos (by omega : offset < offset + size)]
      rfl
    rw [heq]
    obtain ⟨h1, h2, h3, h4⟩ := read_loop_spec R url offset size
      (offset + size) offset (List.replicate size 0) st (by omega)
      (Nat.le_refl offset) hcoh
    refine ⟨?_, h2, h3, h4⟩
    rw [h1, Nat.sub_self, Nat.add_sub_cancel_left]
  · have hsz0 : size = 0 := by omega
    subst hsz0
    obtain ⟨hs1, hs2, hs3, hs4⟩ :=
      read_step_spec R st url offset 0 offset (List.replicate 0 0) hcoh
    have hstride : strideOf offset 0 offset = 0 := by
      unfold strideOf
      have h1 := Nat.div_add_mod offset BLOCK_SIZE
      have h2 : offset % BLOCK_SIZE < BLOCK_SIZE := Nat.mod_lt _ (by decide)
      omega
    have hstop : read_run (originRemote R) st url offset 0 =
        ((read_step (originRemote R) st url offset 0 offset
            (List.replicate 0 0)).2.1,
          (read_step (originRemote R) st url offset 0 offset
            (List.replicate 0 0)).2.2) := by
      unfold read_run
      rw [read_loop.eq_def, dif_neg]
      rw [read_step_fst, hstride]
      omega
    rw [hstop]
    refine ⟨?_, hs2, hs3, hs4⟩
    rw [hs1, hstride]
    simp [writeData_nil]

theorem read_spec (R : List Nat) (now : Nat) (st : FsState) (path : String)
    (e : FileEntry) (size offset : Nat)
    (hfile : aLookup st.files path = some e)
    (hcoh : cacheCoherent R (mkUrl st.schema path) st.diskCache) :
    (read (originRemote R) now st path size offset).1 =
      .ok (writeData (List.replicate size 0) 0 ((R.drop offset).take size)) ∧
    (read (originRemote R) now st path size offset).2.files =
      touchFiles st.files path now ∧
    (read (originRemote R) now st path size offset).2.schema = st.schema ∧
    cacheCoherent R (mkUrl st.schema path)
      (read (originRemote R) now st path size offset).2.diskCache := by
  obtain ⟨h1, h2, h3, h4⟩ :=
    read_run_spec R st (mkUrl st.schema path) offset size hcoh
  have hred : read (originRemote R) now st path size offset =
      (.ok (read_run (originRemote R) st (mkUrl st.schema path) offset size).1,
        { (read_run (originRemote R) st (mkUrl st.schema path) offset size).2
            with
          files := touchFiles
            (read_run (originRemote R) st
              (mkUrl st.schema path) offset size).2.files path now }) := by
    unfold read
    rw [hfile]
  rw [hred]
  exact ⟨by rw [h1], by rw [h3], by rw [h4], h2⟩

theorem read_log (remote : String → Nat → Nat → HttpResponse) (now : Nat)
    (st : FsState) (path : String) (size offset : Nat) (e : FileEntry)
    (hfile : aLookup st.files path = some e) :
    (read remote now st path size offset).2.log =
      (read_run remote st (mkUrl st.schema path) offset size).2.log := by
  unfold read
  rw [hfile]

theorem aLookup_touchFiles_self (files : List (String × FileEntry))
    (path : String) (now : Nat) (e : FileEntry)
    (h : aLookup files path = some e) :
    aLookup (touchFiles files path now) path = some ⟨now, e.attr⟩ := by
  induction files with
  | nil => simp [aLookup] at h
  | cons kv rest ih =>
      obtain ⟨p, fe⟩ := kv
      by_cases hp : p = path
      · subst hp
        simp only [aLookup, if_pos rfl] at h
        injection h with h
        subst h
        simp only [touchFiles, List.map_cons]
        simp [aLookup]
      · simp only [aLookup, if_neg hp] at h
        simp only [touchFiles, List.map_cons, if_neg hp]
        simp only [aLookup, if_neg hp]
        exact ih h

theorem get_block_miss (remote : String → Nat → Nat → HttpResponse)
    (st : FsState) (url : String) (b : Nat)
    (hmiss : aLookup st.diskCache (url, b) = none) :
    (get_block remote st url b).1 =
      (remote url (b * BLOCK_SIZE) (b * BLOCK_SIZE + BLOCK_SIZE - 1)).content ∧
    (get_block remote st url b).2.log = st.log ++ [blockReq url b] ∧
    (get_block remote st url b).2.diskCache =
      aSet st.diskCache (url, b)
        (remote url (b * BLOCK_SIZE) (b * BLOCK_SIZE + BLOCK_SIZE - 1)).content ∧
    (get_block remote st url b).2.lruMisses = st.lruMisses + 1 ∧
    (get_block remote st url b).2.lruHits = st.lruHits := by
  simp only [get_block, hmiss]
  refine ⟨?_, ?_, ?_, ?_, ?_⟩ <;> first | rfl | trivial

theorem read_step_state (remote : String → Nat → Nat → HttpResponse)
    (st : FsState) (url : String) (offset size curr_start : Nat)
    (out : List Nat) :
    (read_step remote st url offset size curr_start out).2.2 =
      (get_block remote st url (curr_start / BLOCK_SIZE)).2 := rfl

theorem read_loop_log (R : List Nat) (url : String) (offset size : Nat) :
    ∀ n curr_start out st, offset + size - curr_start ≤ n →
      offset ≤ curr_start → curr_start < offset + size →
      (∀ b, curr_start / BLOCK_SIZE ≤ b →
        aLookup st.diskCache (url, b) = none) →
      (read_loop (originRemote R) url offset size curr_start out st).2.log =
        st.log ++ (List.range' (curr_start / BLOCK_SIZE)
          ((offset + size - 1) / BLOCK_SIZE + 1 -
            curr_start / BLOCK_SIZE)).map (blockReq url) := by
  intro n
  induction n with
  | zero =>
      intro cs out st hn hcs hlt hnone
      omega
  | succ n ih =>
      intro cs out st hn hcs hlt hnone
      have hBpos : 0 < BLOCK_SIZE := by decide
      have hdm := Nat.div_add_mod cs BLOCK_SIZE
      have hml : cs % BLOCK_SIZE < BLOCK_SIZE := Nat.mod_lt _ hBpos
      have hbL : cs / BLOCK_SIZE ≤ (offset + size - 1) / BLOCK_SIZE :=
        Nat.div_le_div_right (by omega)
      obtain ⟨hg1, hg2, hg3, hg4, hg5⟩ := get_block_miss (originRemote R) st
        url (cs / BLOCK_SIZE) (hnone _ (Nat.le_refl _))
      have hred : read_loop (originRemote R) url offset size cs out st =
          read_loop (originRemote R) url offset size
            ((read_step (originRemote R) st url offset size cs out).1)
            ((read_step (originRemote R) st url offset size cs out).2.1)
            ((read_step (originRemote R) st url offset size cs out).2.2) := by
        rw [read_loop.eq_def, dif_pos hlt]
      have hpos := strideOf_pos offset size cs hlt
      by_cases hnext : cs + strideOf offset size cs < offset + size
      · have hnext' := hnext
        unfold strideOf at hnext'
        have hstride : strideOf offset size cs =
            BLOCK_SIZE - cs % BLOCK_SIZE := by
          unfold strideOf
          omega
        have hcs' : cs + strideOf offset size cs =
            (cs / BLOCK_SIZE + 1) * BLOCK_SIZE := by
          rw [hstride]
          have : (cs / BLOCK_SIZE + 1) * BLOCK_SIZE =
              BLOCK_SIZE * (cs / BLOCK_SIZE) + BLOCK_SIZE := by ring
          omega
        have hdiv' : (cs + strideOf offset size cs) / BLOCK_SIZE =
            cs / BLOCK_SIZE + 1 := by
          rw [hcs']
          exact Nat.mul_div_cancel _ hBpos
        have hnone' : ∀ b, (cs + strideOf offset size cs) / BLOCK_SIZE ≤ b →
            aLookup ((read_step (originRemote R) st url offset size cs
              out).2.2).diskCache (url, b) = none := by
          intro b hb
          rw [hdiv'] at hb
          rw [read_step_state, hg3]
          rw [aLookup_aSet_ne _ _ _ _ (by
            intro hcontra
            have : cs / BLOCK_SIZE = b := congrArg Prod.snd hcontra
            omega)]
          exact hnone b (by omega)
        rw [hred]
        rw [ih ((read_step (originRemote R) st url offset size cs out).1)
          ((read_step (originRemote R) st url offset size cs out).2.1)
          ((read_step (originRemote R) st url offset size cs out).2.2)
          (by rw [read_step_fst]; omega)
          (by rw [read_step_fst]; omega)
          (by rw [read_step_fst]; exact hnext)
          (by rw [read_step_fst]; exact hnone')]
        rw [read_step_fst, read_step_state, hg2, hdiv']
        rw [List.append_assoc]
        congr 1
        rw [show (offset + size - 1) / BLOCK_SIZE + 1 - cs / BLOCK_SIZE =
          ((offset + size - 1) / BLOCK_SIZE - cs / BLOCK_SIZE) + 1 from by
            omega]
        rw [List.range'_succ]
        rw [List.map_cons]
        rw [show List.range' (cs / BLOCK_SIZE + 1)
            ((offset + size - 1) / BLOCK_SIZE - cs / BLOCK_SIZE) =
          List.range' (cs / BLOCK_SIZE + 1)
            ((offset + size - 1) / BLOCK_SIZE + 1 - (cs / BLOCK_SIZE + 1))
          from by congr 1; omega]
        rfl
      · have hLb : (offset + size - 1) / BLOCK_SIZE = cs / BLOCK_SIZE := by
          have h1 : offset + size ≤ cs + strideOf offset size cs := by omega
          have h2 : cs + strideOf offset size cs ≤
              BLOCK_SIZE * (cs / BLOCK_SIZE) + BLOCK_SIZE := by
            unfold strideOf
            omega
          have h3 : offset + size - 1 < (cs / BLOCK_SIZE + 1) * BLOCK_SIZE := by
            have : (cs / BLOCK_SIZE + 1) * BLOCK_SIZE =
                BLOCK_SIZE * (cs / BLOCK_SIZE) + BLOCK_SIZE := by ring
            omega
          have h4 : (offset + size - 1) / BLOCK_SIZE < cs / BLOCK_SIZE + 1 :=
            (Nat.div_lt_iff_lt_mul hBpos).mpr h3
          omega
        have hstop : ¬ (read_step (originRemote R) st url offset size cs
            out).1 < offset + size := by
          rw [read_step_fst]
          omega
        rw [hred, read_loop.eq_def, dif_neg hstop]
        rw [read_step_state, hg2, hLb]
        rw [show cs / BLOCK_SIZE + 1 - cs / BLOCK_SIZE = 1 from by omega]
        rfl

theorem aLookup_isSome_of_mem {α β : Type} [DecidableEq α] (l : List (α × β))
    (k : α) (h : k ∈ l.map Prod.fst) : (aLookup l k).isSome := by
  induction l with
  | nil => simp at h
  | cons kv rest ih =>
      obtain ⟨a, b⟩ := kv
      by_cases ha : a = k
      · simp [aLookup, ha]
      · simp only [List.map_cons, List.mem_cons] at h
        rcases h with h | h
        · exact absurd h.symm ha
        · simp [aLookup, ha, ih h]

theorem not_mem_of_aLookup_eq_none {α β : Type} [DecidableEq α]
    (l : List (α × β)) (k : α) (h : aLookup l k = none) :
    k ∉ l.map Prod.fst := by
  intro hmem
  have := aLookup_isSome_of_mem l k hmem
  rw [h] at this
  simp at this

theorem aLookup_append_right {α β : Type} [DecidableEq α]
    (l₁ l₂ : List (α × β)) (k : α) (h : aLookup l₁ k = none) :
    aLookup (l₁ ++ l₂) k = aLookup l₂ k := by
  induction l₁ with
  | nil => rfl
  | cons kv rest ih =>
      obtain ⟨a, b⟩ := kv
      by_cases ha : a = k
      · simp [aLookup, ha] at h
      · simp only [aLookup, if_neg ha] at h
        simp only [List.cons_append, aLookup, if_neg ha]
        exact ih h

theorem not_mem_map_fst_odErase_self {α β : Type} [DecidableEq α]
    (l : List (α × β)) (k : α) (hnd : (l.map Prod.fst).Nodup) :
    k ∉ (odErase l k).map Prod.fst := by
  induction l with
  | nil => simp [odErase]
  | cons kv rest ih =>
      obtain ⟨a, b⟩ := kv
      simp only [List.map_cons, List.nodup_cons] at hnd
      by_cases ha : a = k
      · subst ha
        simp only [odErase, if_pos rfl]
        intro hmem
        rcases List.exists_of_mem_map hmem with ⟨p, hp, hpe⟩
        exact hnd.1 (hpe ▸ List.mem_map_of_mem Prod.fst hp)
      · simp only [odErase, if_neg ha, List.map_cons, List.mem_cons, not_or]
        exact ⟨fun hc => ha hc.symm, ih hnd.2⟩

theorem touch_of_lookup {α β : Type} [DecidableEq α] (c : LRUCache α β)
    (k : α) (v : β) (h : aLookup c.cache k = some v) :
    c.touch k = ⟨c.capacity, odErase c.cache k ++ [(k, v)]⟩ := by
  unfold LRUCache.touch LRUCache.getItem
  rw [h]

theorem setItem_fresh_full {α β : Type} [DecidableEq α] (c : LRUCache α β)
    (k : α) (v : β) (hnone : aLookup c.cache k = none)
    (hfull : c.capacity ≤ c.cache.length) :
    c.setItem k v = ⟨c.capacity, c.cache.drop 1 ++ [(k, v)]⟩ := by
  unfold LRUCache.setItem
  rw [hnone, if_pos hfull]

theorem setItem_fresh_room {α β : Type} [DecidableEq α] (c : LRUCache α β)
    (k : α) (v : β) (hnone : aLookup c.cache k = none)
    (hroom : ¬ c.capacity ≤ c.cache.length) :
    c.setItem k v = ⟨c.capacity, c.cache ++ [(k, v)]⟩ := by
  unfold LRUCache.setItem
  rw [hnone, if_neg hroom]

theorem lruInsertAll_fresh {α β : Type} [DecidableEq α] :
    ∀ (l : List (α × β)) (c : LRUCache α β),
      (l.map Prod.fst).Nodup →
      (∀ k ∈ l.map Prod.fst, aLookup c.cache k = none) →
      c.cache.length ≤ c.capacity → 1 ≤ c.capacity →
      (lruInsertAll c l).cache =
        (c.cache ++ l).drop (c.cache.length + l.length - c.capacity) ∧
      (lruInsertAll c l).capacity = c.capacity := by
  intro l
  induction l with
  | nil =>
      intro c hnd hfresh hlen hcap
      refine ⟨?_, rfl⟩
      rw [show c.cache.length + ([] : List (α × β)).length - c.capacity = 0
        from by simp; omega]
      simp [lruInsertAll]
  | cons kv rest ih =>
      intro c hnd hfresh hlen hcap
      obtain ⟨k, v⟩ := kv
      have hfk : aLookup c.cache k = none := hfresh k (by simp)
      simp only [List.map_cons, List.nodup_cons] at hnd
      have hstep : lruInsertAll c ((k, v) :: rest) =
          lruInsertAll (c.setItem k v) rest := rfl
      rw [hstep]
      by_cases hful : c.capacity ≤ c.cache.length
      · have hlcap : c.cache.length = c.capacity := by omega
        have hne : c.cache ≠ [] := by
          intro hc
          rw [hc] at hlcap
          simp at hlcap
          omega
        have hset := setItem_fresh_full c k v hfk hful
        have hfresh' : ∀ k' ∈ rest.map Prod.fst,
            aLookup (c.setItem k v).cache k' = none := by
          intro k' hk'
          rw [hset]
          have h1 : aLookup (c.cache.drop 1) k' = none := by
            apply aLookup_eq_none_of_not_mem
            intro hmem
            rcases List.exists_of_mem_map hmem with ⟨p, hp, hpe⟩
            have : k' ∈ c.cache.map Prod.fst :=
              hpe ▸ List.mem_map_of_mem Prod.fst (List.mem_of_mem_drop hp)
            exact not_mem_of_aLookup_eq_none _ _
              (hfresh k' (by simp [hk'])) this
          rw [aLookup_append_right _ _ _ h1]
          have hkk : k ≠ k' := fun hc => hnd.1 (hc ▸ hk')
          simp [aLookup, hkk]
        have hlen' : (c.setItem k v).cache.length ≤ (c.setItem k v).capacity := by
          rw [hset]
          simp
          omega
        have hcap' : 1 ≤ (c.setItem k v).capacity := by rw [hset]; exact hcap
        obtain ⟨ih1, ih2⟩ := ih (c.setItem k v) hnd.2 hfresh' hlen' hcap'
        have hpos := List.length_pos.mpr hne
        constructor
        · rw [ih1, hset]
          dsimp only
          rw [show (c.cache.drop 1 ++ [(k, v)]).length + rest.length -
              c.capacity = rest.length from by simp; omega]
          rw [show c.cache.length + ((k, v) :: rest).length - c.capacity =
              rest.length + 1 from by simp; omega]
          rw [show (c.cache.drop 1 ++ [(k, v)]) ++ rest =
            (c.cache ++ ((k, v) :: rest)).drop 1 from by
              rw [List.drop_append_of_le_length (by omega)]
              simp]
          rw [List.drop_drop]
          congr 1
          omega
        · rw [ih2, hset]
      · have hset := setItem_fresh_room c k v hfk hful
        have hfresh' : ∀ k' ∈ rest.map Prod.fst,
            aLookup (c.setItem k v).cache k' = none := by
          intro k' hk'
          rw [hset]
          rw [aLookup_append_right _ _ _ (hfresh k' (by simp [hk']))]
          have hkk : k ≠ k' := fun hc => hnd.1 (hc ▸ hk')
          simp [aLookup, hkk]
        have hlen' : (c.setItem k v).cache.length ≤ (c.setItem k v).capacity := by
          rw [hset]
          simp
          omega
        have hcap' : 1 ≤ (c.setItem k v).capacity := by rw [hset]; exact hcap
        obtain ⟨ih1, ih2⟩ := ih (c.setItem k v) hnd.2 hfresh' hlen' hcap'
        constructor
        · rw [ih1, hset]
          dsimp only
          rw [show (c.cache ++ [(k, v)]) ++ rest =
            c.cache ++ ((k, v) :: rest) from by simp]
          congr 1
          simp
          omega
        · rw [ih2, hset]

theorem lruInsertAll_fits {α β : Type} [DecidableEq α] (l : List (α × β))
    (C : Nat) (hnd : (l.map Prod.fst).Nodup) (hlen : l.length ≤ C)
    (hcap : 1 ≤ C) :
    (lruInsertAll (LRUCache.emptyCache α β C) l).cache = l ∧
    (lruInsertAll (LRUCache.emptyCache α β C) l).capacity = C := by
  obtain ⟨h1, h2⟩ := lruInsertAll_fresh l (LRUCache.emptyCache α β C) hnd
    (fun k _ => rfl) (by simp [LRUCache.emptyCache]) hcap
  refine ⟨?_, h2⟩
  rw [h1]
  show (([] : List (α × β)) ++ l).drop (0 + l.length - C) = l
  rw [show 0 + l.length - C = 0 from by omega]
  simp

/-- C6: after a cleanup sweep at time now, a files entry survives exactly
when its last-access time lies strictly within the expiry window, with its
attributes unchanged; equivalently, an entry is removed if and only if
now minus its last-access time is at least CLEANUP_EXPIRED. -/
theorem C6_cleanup_ttl (now : Nat) (st : FsState) (p : String)
    (e : FileEntry) :
    (p, e) ∈ (cleanup now st).files ↔
      (p, e) ∈ st.files ∧ now - e.time < CLEANUP_EXPIRED := by
  unfold cleanup
  simp [List.mem_filter]

/-- C10: read on a path with no files entry returns the EIO error and leaves
the entire state unchanged, for every remote; in particular no ranged GET is
issued (the ghost log is part of the unchanged state) and no cache is
modified. -/
theorem C10_read_unknown_path_eio
    (remote : String → Nat → Nat → HttpResponse) (now : Nat) (st : FsState)
    (path : String) (size offset : Nat)
    (h : aLookup st.files path = none) :
    read remote now st path size offset = (.error EIO, st) := by
  unfold read
  rw [h]

/-- Witness for C10 at a concrete empty state. -/
theorem C10_read_unknown_path_eio_witness :
    aLookup (⟨"http", [], [], 0, 0, []⟩ : FsState).files "/a.." = none ∧
    read (originRemote [1, 2]) 9 ⟨"http", [], [], 0, 0, []⟩ "/a.." 4 0 =
      (.error EIO, ⟨"http", [], [], 0, 0, []⟩) :=
  ⟨rfl, C10_read_unknown_path_eio (originRemote [1, 2]) 9
    ⟨"http", [], [], 0, 0, []⟩ "/a.." 4 0 rfl⟩

/-- C3 is a code bug: getattr never consults the HEAD status code. For a
path whose HEAD-equivalent answers 404 with a Content-Length header (the
usual error page), getattr succeeds with a regular-file record sized by the
error page and caches a files entry, instead of failing with the no-such-
entry condition; and when the 404 response carries no Content-Length the
source raises KeyError from the header dictionary rather than ENOENT
(imported at source line 2 but never used). -/
theorem C3_getattr_ignores_404 :
    getattr (fun _ => ⟨404, some 162⟩) 7 ⟨"https", [], [], 0, 0, []⟩
        "/example.com/missing.." =
      (some (.file ⟨S_IFREG + 420, 1, 162, 7, 7, 7⟩),
        ⟨"https",
          [("/example.com/missing..", ⟨7, ⟨S_IFREG + 420, 1, 162, 7, 7, 7⟩⟩)],
          [], 0, 0, []⟩) ∧
    getattr (fun _ => ⟨404, none⟩) 7 ⟨"https", [], [], 0, 0, []⟩
        "/example.com/missing.." =
      (none, ⟨"https", [], [], 0, 0, []⟩) := by
  constructor <;> rfl

/-- C4 is a code bug: get_block never consults the response status code. A
ranged GET answered with status 404 and an error body has that body returned
as block content and stored in the disk cache. -/
theorem C4_get_block_caches_error_body :
    get_block (fun _ _ _ => ⟨404, [60, 104, 116, 109, 108, 62]⟩)
        ⟨"https", [], [], 0, 0, []⟩ "https://x/f" 0 =
      ([60, 104, 116, 109, 108, 62],
        ⟨"https", [], [(("https://x/f", 0), [60, 104, 116, 109, 108, 62])],
          0, 1, [⟨"https://x/f", rangeHeader 0 (BLOCK_SIZE - 1)⟩]⟩) := by
  rfl

/-- C8: a block fetch that misses the cache issues exactly one ranged GET,
whose Range header covers precisely the bytes of block b with an inclusive
end, and the whole response body is stored in the block cache under the key
formed from the url and b, and returned. -/
theorem C8_miss_issues_one_range_request
    (remote : String → Nat → Nat → HttpResponse) (st : FsState)
    (url : String) (b : Nat)
    (hmiss : aLookup st.diskCache (url, b) = none) :
    (get_block remote st url b).2.log = st.log ++
      [⟨url, rangeHeader (b * BLOCK_SIZE)
        (b * BLOCK_SIZE + BLOCK_SIZE - 1)⟩] ∧
    (get_block remote st url b).2.diskCache = aSet st.diskCache (url, b)
      (remote url (b * BLOCK_SIZE) (b * BLOCK_SIZE + BLOCK_SIZE - 1)).content ∧
    (get_block remote st url b).1 =
      (remote url (b * BLOCK_SIZE) (b * BLOCK_SIZE + BLOCK_SIZE - 1)).content ∧
    aLookup (get_block remote st url b).2.diskCache (url, b) =
      some (remote url (b * BLOCK_SIZE)
        (b * BLOCK_SIZE + BLOCK_SIZE - 1)).content := by
  obtain ⟨h1, h2, h3, _, _⟩ := get_block_miss remote st url b hmiss
  exact ⟨by rw [h2]; rfl, h3, h1,
    by rw [h3]; exact aLookup_aSet_self _ _ _⟩

/-- Witness for C8 at a concrete miss. -/
theorem C8_miss_issues_one_range_request_witness :
    aLookup (⟨"http", [], [], 0, 0, []⟩ : FsState).diskCache ("u", 2) =
      none ∧
    (get_block (fun _ _ _ => ⟨206, [9, 9]⟩)
        ⟨"http", [], [], 0, 0, []⟩ "u" 2).2.log =
      (⟨"http", [], [], 0, 0, []⟩ : FsState).log ++
        [⟨"u", rangeHeader (2 * BLOCK_SIZE)
          (2 * BLOCK_SIZE + BLOCK_SIZE - 1)⟩] :=
  ⟨rfl, (C8_miss_issues_one_range_request (fun _ _ _ => ⟨206, [9, 9]⟩)
    ⟨"http", [], [], 0, 0, []⟩ "u" 2 rfl).1⟩

/-- C1: for a resource of known size, an in-range read performed twice
against a compliant origin, starting from an empty block cache, returns the
same bytes both times, and both results equal the origin bytes of exactly
the requested range (the first call populates the cache, the second one is
answered from it; coherence of the cache makes both reads agree). -/
theorem C1_round_trip (R : List Nat) (st : FsState) (path : String)
    (e : FileEntry) (now1 now2 offset length : Nat)
    (hfile : aLookup st.files path = some e)
    (hcache : st.diskCache = [])
    (hlen : 0 < length)
    (hrange : offset + length ≤ R.length) :
    (read (originRemote R) now1 st path length offset).1 =
      .ok (fetchRange R offset (offset + length - 1)) ∧
    (read (originRemote R) now2
        (read (originRemote R) now1 st path length offset).2
        path length offset).1 =
      .ok (fetchRange R offset (offset + length - 1)) := by
  have hcoh : cacheCoherent R (mkUrl st.schema path) st.diskCache := by
    rw [hcache]
    exact cacheCoherent_nil R _
  obtain ⟨h1, h2, h3, h4⟩ :=
    read_spec R now1 st path e length offset hfile hcoh
  have hout : writeData (List.replicate length 0) 0
      ((R.drop offset).take length) =
      fetchRange R offset (offset + length - 1) := by
    rw [writeData_replicate_full _ _ (by
      rw [List.length_take, List.length_drop]
      omega)]
    unfold fetchRange
    congr 1
    omega
  constructor
  · rw [h1, hout]
  · have hfile1 : aLookup
        (read (originRemote R) now1 st path length offset).2.files path =
        some ⟨now1, e.attr⟩ := by
      rw [h2]
      exact aLookup_touchFiles_self _ _ _ _ hfile
    have hcoh1 : cacheCoherent R
        (mkUrl (read (originRemote R) now1 st path length offset).2.schema
          path)
        (read (originRemote R) now1 st path length offset).2.diskCache := by
      rw [h3]
      exact h4
    obtain ⟨g1, _, _, _⟩ := read_spec R now2
      (read (originRemote R) now1 st path length offset).2 path
      ⟨now1, e.attr⟩ length offset hfile1 hcoh1
    rw [g1, hout]

/-- Witness for C1 at a concrete three-byte resource. -/
theorem C1_round_trip_witness :
    aLookup
        ([("/h/f..", (⟨0, ⟨33188, 1, 3, 0, 0, 0⟩⟩ : FileEntry))]) "/h/f.." =
      some ⟨0, ⟨33188, 1, 3, 0, 0, 0⟩⟩ ∧
    (0 : Nat) < 2 ∧ 1 + 2 ≤ ([5, 6, 7] : List Nat).length ∧
    ((read (originRemote [5, 6, 7]) 1
        ⟨"http", [("/h/f..", ⟨0, ⟨33188, 1, 3, 0, 0, 0⟩⟩)], [], 0, 0, []⟩
        "/h/f.." 2 1).1 = .ok (fetchRange [5, 6, 7] 1 (1 + 2 - 1)) ∧
      (read (originRemote [5, 6, 7]) 4
        (read (originRemote [5, 6, 7]) 1
          ⟨"http", [("/h/f..", ⟨0, ⟨33188, 1, 3, 0, 0, 0⟩⟩)], [], 0, 0, []⟩
          "/h/f.." 2 1).2
        "/h/f.." 2 1).1 = .ok (fetchRange [5, 6, 7] 1 (1 + 2 - 1))) :=
  ⟨rfl, by decide, by decide,
    C1_round_trip [5, 6, 7]
      ⟨"http", [("/h/f..", ⟨0, ⟨33188, 1, 3, 0, 0, 0⟩⟩)], [], 0, 0, []⟩
      "/h/f.." ⟨0, ⟨33188, 1, 3, 0, 0, 0⟩⟩ 1 4 1 2 rfl rfl (by decide)
      (by decide)⟩

/-- C7: reading the whole resource in one call returns the concatenation of
the two results obtained by splitting the range at any interior offset and
reading the two parts in sequence, starting from an empty block cache. -/
theorem C7_split_read_concat (R : List Nat) (st : FsState) (path : String)
    (e : FileEntry) (nowA nowB nowC k : Nat)
    (hfile : aLookup st.files path = some e)
    (hcache : st.diskCache = [])
    (_hk0 : 0 < k) (hkS : k < R.length) :
    ∃ y z,
      (read (originRemote R) nowB st path k 0).1 = .ok y ∧
      (read (originRemote R) nowC
          (read (originRemote R) nowB st path k 0).2
          path (R.length - k) k).1 = .ok z ∧
      (read (originRemote R) nowA st path R.length 0).1 = .ok (y ++ z) := by
  have hcoh : cacheCoherent R (mkUrl st.schema path) st.diskCache := by
    rw [hcache]
    exact cacheCoherent_nil R _
  refine ⟨R.take k, R.drop k, ?_, ?_, ?_⟩
  · obtain ⟨h1, _, _, _⟩ := read_spec R nowB st path e k 0 hfile hcoh
    rw [h1]
    congr 1
    rw [writeData_replicate_full _ _ (by
      rw [List.length_take, List.length_drop]
      omega)]
    simp
  · obtain ⟨h1, h2, h3, h4⟩ := read_spec R nowB st path e k 0 hfile hcoh
    have hfile1 : aLookup
        (read (originRemote R) nowB st path k 0).2.files path =
        some ⟨nowB, e.attr⟩ := by
      rw [h2]
      exact aLookup_touchFiles_self _ _ _ _ hfile
    have hcoh1 : cacheCoherent R
        (mkUrl (read (originRemote R) nowB st path k 0).2.schema path)
        (read (originRemote R) nowB st path k 0).2.diskCache := by
      rw [h3]
      exact h4
    obtain ⟨g1, _, _, _⟩ := read_spec R nowC
      (read (originRemote R) nowB st path k 0).2 path
      ⟨nowB, e.attr⟩ (R.length - k) k hfile1 hcoh1
    rw [g1]
    congr 1
    rw [writeData_replicate_full _ _ (by
      rw [List.length_take, List.length_drop]
      omega)]
    exact List.take_of_length_le (by rw [List.length_drop])
  · obtain ⟨h1, _, _, _⟩ := read_spec R nowA st path e R.length 0 hfile hcoh
    rw [h1]
    congr 1
    rw [writeData_replicate_full _ _ (by
      rw [List.length_take, List.length_drop]
      omega)]
    rw [List.drop_zero, List.take_length, List.take_append_drop]

/-- Witness for C7 at a concrete three-byte resource split at one. -/
theorem C7_split_read_concat_witness :
    aLookup
        ([("/h/f..", (⟨0, ⟨33188, 1, 3, 0, 0, 0⟩⟩ : FileEntry))]) "/h/f.." =
      some ⟨0, ⟨33188, 1, 3, 0, 0, 0⟩⟩ ∧
    (0 : Nat) < 1 ∧ 1 < ([5, 6, 7] : List Nat).length ∧
    (∃ y z,
      (read (originRemote [5, 6, 7]) 2
        ⟨"http", [("/h/f..", ⟨0, ⟨33188, 1, 3, 0, 0, 0⟩⟩)], [], 0, 0, []⟩
        "/h/f.." 1 0).1 = .ok y ∧
      (read (originRemote [5, 6, 7]) 3
        (read (originRemote [5, 6, 7]) 2
          ⟨"http", [("/h/f..", ⟨0, ⟨33188, 1, 3, 0, 0, 0⟩⟩)], [], 0, 0, []⟩
          "/h/f.." 1 0).2
        "/h/f.." (([5, 6, 7] : List Nat).length - 1) 1).1 = .ok z ∧
      (read (originRemote [5, 6, 7]) 1
        ⟨"http", [("/h/f..", ⟨0, ⟨33188, 1, 3, 0, 0, 0⟩⟩)], [], 0, 0, []⟩
        "/h/f.." ([5, 6, 7] : List Nat).length 0).1 = .ok (y ++ z)) :=
  ⟨rfl, by decide, by decide,
    C7_split_read_concat [5, 6, 7]
      ⟨"http", [("/h/f..", ⟨0, ⟨33188, 1, 3, 0, 0, 0⟩⟩)], [], 0, 0, []⟩
      "/h/f.." ⟨0, ⟨33188, 1, 3, 0, 0, 0⟩⟩ 1 2 3 1 rfl rfl (by decide)
      (by decide)⟩

/-- C9: for a path with a files entry, read always returns exactly the
requested number of bytes, even when the requested range runs past the end
of the resource: the bytes actually available from fetched blocks appear at
the start and every position not covered by block data remains a zero byte,
so the result is never shorter than requested. -/
theorem C9_read_exact_length (R : List Nat) (st : FsState) (path : String)
    (e : FileEntry) (now size offset : Nat)
    (hfile : aLookup st.files path = some e)
    (hcache : st.diskCache = []) :
    ∃ out, (read (originRemote R) now st path size offset).1 = .ok out ∧
      out.length = size ∧
      out = (R.drop offset).take size ++
        List.replicate (size - ((R.drop offset).take size).length) 0 := by
  have hcoh : cacheCoherent R (mkUrl st.schema path) st.diskCache := by
    rw [hcache]
    exact cacheCoherent_nil R _
  obtain ⟨h1, _, _, _⟩ := read_spec R now st path e size offset hfile hcoh
  refine ⟨writeData (List.replicate size 0) 0 ((R.drop offset).take size),
    by rw [h1], ?_, ?_⟩
  · rw [length_writeData]
    simp
  · exact writeData_replicate_padded _ _ (by
      rw [List.length_take]
      omega)

/-- Witness for C9 reading five bytes of a two-byte resource. -/
theorem C9_read_exact_length_witness :
    aLookup
        ([("/h/f..", (⟨0, ⟨33188, 1, 2, 0, 0, 0⟩⟩ : FileEntry))]) "/h/f.." =
      some ⟨0, ⟨33188, 1, 2, 0, 0, 0⟩⟩ ∧
    (∃ out,
      (read (originRemote [7, 8]) 1
        ⟨"http", [("/h/f..", ⟨0, ⟨33188, 1, 2, 0, 0, 0⟩⟩)], [], 0, 0, []⟩
        "/h/f.." 5 1).1 = .ok out ∧
      out.length = 5 ∧
      out = (([7, 8] : List Nat).drop 1).take 5 ++
        List.replicate (5 - ((([7, 8] : List Nat).drop 1).take 5).length) 0) :=
  ⟨rfl,
    C9_read_exact_length [7, 8]
      ⟨"http", [("/h/f..", ⟨0, ⟨33188, 1, 2, 0, 0, 0⟩⟩)], [], 0, 0, []⟩
      "/h/f.." ⟨0, ⟨33188, 1, 2, 0, 0, 0⟩⟩ 1 5 1 rfl rfl⟩

/-- C2: on a million-byte resource, reading ten bytes at offset 262140 from
an empty cache fetches exactly block 0 and block 1 (one ranged GET each, in
that order) and returns the last four bytes of block 0 followed by the first
six bytes of block 1. -/
theorem C2_boundary_read (R : List Nat) (st : FsState) (path : String)
    (e : FileEntry) (now : Nat)
    (hfile : aLookup st.files path = some e)
    (hcache : st.diskCache = [])
    (hlog : st.log = [])
    (hR : R.length = 1000000) :
    (read (originRemote R) now st path 10 262140).1 =
      .ok ((fetchRange R 0 (BLOCK_SIZE - 1)).drop (BLOCK_SIZE - 4) ++
        (fetchRange R BLOCK_SIZE (2 * BLOCK_SIZE - 1)).take 6) ∧
    (read (originRemote R) now st path 10 262140).2.log =
      [blockReq (mkUrl st.schema path) 0, blockReq (mkUrl st.schema path) 1] := by
  have hBS : BLOCK_SIZE = 262144 := rfl
  have hcoh : cacheCoherent R (mkUrl st.schema path) st.diskCache := by
    rw [hcache]
    exact cacheCoherent_nil R _
  constructor
  · obtain ⟨h1, _, _, _⟩ := read_spec R now st path e 10 262140 hfile hcoh
    rw [h1]
    congr 1
    rw [writeData_replicate_full _ _ (by
      rw [List.length_take, List.length_drop, hR]
      omega)]
    unfold fetchRange
    rw [hBS]
    norm_num
    rw [List.drop_take, List.take_take]
    norm_num
    rw [show (10 : Nat) = 4 + 6 from by norm_num, List.take_add,
      List.drop_drop]
  · have hlogred := read_log (originRemote R) now st path 10 262140 e hfile
    have hrunloop :
        read_run (originRemote R) st (mkUrl st.schema path) 262140 10 =
        read_loop (originRemote R) (mkUrl st.schema path) 262140 10 262140
          (List.replicate 10 0) st := by
      rw [read_loop.eq_def,
        dif_pos (by omega : (262140 : Nat) < 262140 + 10)]
      rfl
    rw [hlogred, hrunloop]
    rw [read_loop_log R (mkUrl st.schema path) 262140 10 (262140 + 10)
      262140 (List.replicate 10 0) st (by omega) (Nat.le_refl _) (by omega)
      (fun b _ => by rw [hcache]; rfl)]
    rw [hlog]
    rw [show (262140 : Nat) + 10 - 1 = 262149 from by omega]
    rw [show (262149 : Nat) / BLOCK_SIZE = 1 from by rw [hBS]]
    rw [show (262140 : Nat) / BLOCK_SIZE = 0 from by rw [hBS]]
    rfl

/-- Witness for C2 on a concrete million-byte resource of zero bytes. -/
theorem C2_boundary_read_witness :
    aLookup
        ([("/h/f..",
          (⟨0, ⟨33188, 1, 1000000, 0, 0, 0⟩⟩ : FileEntry))]) "/h/f.." =
      some ⟨0, ⟨33188, 1, 1000000, 0, 0, 0⟩⟩ ∧
    (List.replicate 1000000 (0 : Nat)).length = 1000000 ∧
    (read (originRemote (List.replicate 1000000 0)) 1
        ⟨"http", [("/h/f..", ⟨0, ⟨33188, 1, 1000000, 0, 0, 0⟩⟩)], [], 0, 0,
          []⟩
        "/h/f.." 10 262140).2.log =
      [blockReq (mkUrl "http" "/h/f..") 0,
        blockReq (mkUrl "http" "/h/f..") 1] :=
  ⟨rfl, List.length_replicate 1000000 0,
    (C2_boundary_read (List.replicate 1000000 0)
      ⟨"http", [("/h/f..", ⟨0, ⟨33188, 1, 1000000, 0, 0, 0⟩⟩)], [], 0, 0, []⟩
      "/h/f.." ⟨0, ⟨33188, 1, 1000000, 0, 0, 0⟩⟩ 1 rfl rfl rfl
      (List.length_replicate 1000000 0)).2⟩

/-- Counterexample to C5 as stated: at capacity 1, key 0 is inserted, read
back with a get (making it most-recently-used) immediately before the second
insertion, and the second insertion still evicts it, so the get does not
protect it from that eviction. -/
theorem C5_lru_counterexample :
    (((lruInsertAll (LRUCache.emptyCache Nat Nat 1) [(0, 10)]).touch
        0).setItem 1 11).hasKey 0 = false := by
  decide

/-- C5 amended: for capacity at least 1, inserting capacity plus one
distinct keys into a fresh cache evicts exactly the first inserted key, the
least-recently-touched one, leaving the rest in recency order; and for
capacity at least 2, a get performed on a resident key after the first
capacity insertions and before the final one moves it to the
most-recently-used end, so the final insertion instead evicts the oldest
untouched key and the touched key survives. -/
theorem C5_lru_eviction_amended {α β : Type} [DecidableEq α] (C : Nat)
    (l : List (α × β)) (knew : α) (vnew : β) (hC : 1 ≤ C)
    (hlen : l.length = C)
    (hnd : (l.map Prod.fst ++ [knew]).Nodup) :
    (lruInsertAll (LRUCache.emptyCache α β C) (l ++ [(knew, vnew)])).cache =
      (l ++ [(knew, vnew)]).drop 1 ∧
    (∀ k v, 2 ≤ C → (k, v) ∈ l →
      ((((lruInsertAll (LRUCache.emptyCache α β C) l).touch k).setItem knew
          vnew).cache =
        (odErase l k).drop 1 ++ [(k, v), (knew, vnew)] ∧
      (((lruInsertAll (LRUCache.emptyCache α β C) l).touch k).setItem knew
          vnew).hasKey k = true)) := by
  have hsplit := List.nodup_append.mp hnd
  have hndl : (l.map Prod.fst).Nodup := hsplit.1
  have hknew : knew ∉ l.map Prod.fst := by
    intro hmem
    exact hsplit.2.2 hmem (List.mem_singleton_self knew)
  constructor
  · have hnd' : ((l ++ [(knew, vnew)]).map Prod.fst).Nodup := by
      rw [List.map_append]
      simpa using hnd
    obtain ⟨h1, _⟩ := lruInsertAll_fresh (l ++ [(knew, vnew)])
      (LRUCache.emptyCache α β C) hnd' (fun k _ => rfl)
      (by simp [LRUCache.emptyCache]) hC
    rw [h1]
    show (([] : List (α × β)) ++ (l ++ [(knew, vnew)])).drop
      (0 + (l ++ [(knew, vnew)]).length - C) = _
    rw [List.nil_append]
    rw [show 0 + (l ++ [(knew, vnew)]).length - C = 1 from by
      simp only [List.length_append, List.length_singleton, hlen]
      omega]
  · intro k v hC2 hmem
    obtain ⟨hcache0, hcap0⟩ := lruInsertAll_fits l C hndl (by omega) hC
    have hlk : aLookup (lruInsertAll (LRUCache.emptyCache α β C) l).cache k =
        some v := by
      rw [hcache0]
      exact aLookup_of_mem_nodup l k v hmem hndl
    have hT : (lruInsertAll (LRUCache.emptyCache α β C) l).touch k =
        ⟨C, odErase l k ++ [(k, v)]⟩ := by
      rw [touch_of_lookup _ k v hlk, hcache0, hcap0]
    have hkmem : k ∈ l.map Prod.fst := List.mem_map_of_mem Prod.fst hmem
    have hknewk : knew ≠ k := fun hc => hknew (hc ▸ hkmem)
    have herlen : (odErase l k).length = C - 1 := by
      rw [length_odErase_of_mem l k hkmem, hlen]
    have hlknew : aLookup
        ((lruInsertAll (LRUCache.emptyCache α β C) l).touch k).cache knew =
        none := by
      rw [hT]
      show aLookup (odErase l k ++ [(k, v)]) knew = none
      rw [aLookup_append_right _ _ _ (aLookup_eq_none_of_not_mem _ _
        (fun hmem' => hknew (mem_map_fst_odErase l k knew hmem')))]
      simp [aLookup, Ne.symm hknewk]
    have hfull :
        ((lruInsertAll (LRUCache.emptyCache α β C) l).touch k).capacity ≤
        ((lruInsertAll (LRUCache.emptyCache α β C) l).touch k).cache.length
        := by
      rw [hT]
      show C ≤ (odErase l k ++ [(k, v)]).length
      rw [List.length_append, herlen, List.length_singleton]
      omega
    have hset := setItem_fresh_full _ knew vnew hlknew hfull
    have hfinal :
        (((lruInsertAll (LRUCache.emptyCache α β C) l).touch k).setItem knew
          vnew).cache =
        (odErase l k).drop 1 ++ [(k, v), (knew, vnew)] := by
      rw [hset, hT]
      show (odErase l k ++ [(k, v)]).drop 1 ++ [(knew, vnew)] = _
      rw [List.drop_append_of_le_length (by omega)]
      simp
    refine ⟨hfinal, ?_⟩
    unfold LRUCache.hasKey
    rw [hfinal]
    rw [aLookup_append_right _ _ _ (aLookup_eq_none_of_not_mem _ _
      (fun hmem' => not_mem_map_fst_odErase_self l k hndl (by
        rcases List.exists_of_mem_map hmem' with ⟨p, hp, hpe⟩
        have hmm : p.1 ∈ (odErase l k).map Prod.fst :=
          List.mem_map_of_mem Prod.fst (List.mem_of_mem_drop hp)
        rwa [hpe] at hmm)))]
    simp [aLookup]

/-- Witness for the amended C5 at capacity 2 with keys 0, 1 and new key 2,
the get touching key 0. -/
theorem C5_lru_eviction_amended_witness :
    ((1 : Nat) ≤ 2 ∧ ([(0, 10), (1, 11)] : List (Nat × Nat)).length = 2 ∧
      (([(0, 10), (1, 11)] : List (Nat × Nat)).map Prod.fst ++ [2]).Nodup) ∧
    (lruInsertAll (LRUCache.emptyCache Nat Nat 2)
        ([(0, 10), (1, 11)] ++ [(2, 12)])).cache =
      (([(0, 10), (1, 11)] : List (Nat × Nat)) ++ [(2, 12)]).drop 1 ∧
    (((lruInsertAll (LRUCache.emptyCache Nat Nat 2)
        [(0, 10), (1, 11)]).touch 0).setItem 2 12).hasKey 0 = true :=
  ⟨⟨by decide, by decide, by decide⟩,
    (C5_lru_eviction_amended 2 [(0, 10), (1, 11)] 2 12 (by decide)
      (by decide) (by decide)).1,
    ((C5_lru_eviction_amended 2 [(0, 10), (1, 11)] 2 12 (by decide)
      (by decide) (by decide)).2 0 10 (by decide) (by decide)).2⟩

end Httpfs
